/-
Verification of the ring-buffer log retention module
(`env-bootstrap/src/ringlog.rs`).

Shallow embedding notes:
- `DateTime<Local>` timestamps are modelled as `Nat`; the wall clock read by
  `Local::now()` is passed in explicitly as a `now` parameter.
- `&mut self` methods become state-passing functions; `&self` methods become
  pure functions of the receiver (a faithful rendering of the borrow rules:
  an `&self` method cannot mutate the ring).
- The global `RINGS: Mutex<Rings>` is passed as an explicit `Rings` state.
- `HashMap<Level, LevelRing>` is modelled as `Level → Option LevelRing`;
  iteration order of `values()` is unspecified in Rust, and the model fixes
  the insertion order of `Rings::new` (the public query re-sorts anyway).
-/
import Mathlib

/-- Severity levels of the `log` crate, ordered `Error < Warn < Info < Debug
< Trace` (the crate assigns `Error = 1` through `Trace = 5`). -/
inductive Level where
  | Error
  | Warn
  | Info
  | Debug
  | Trace
deriving DecidableEq

/-- Numeric rank of a level, matching the `log` crate's `usize` repr that its
derived `Ord` compares. -/
def Level.rank : Level → Nat
  | .Error => 1
  | .Warn => 2
  | .Info => 3
  | .Debug => 4
  | .Trace => 5

/-- One retained log record: `pub struct Entry { then, level, target, msg }`.
The Rust field `then` is a reserved word in Lean, hence `thenTime`. -/
structure Entry where
  thenTime : Nat
  level : Level
  target : String
  msg : String
deriving DecidableEq

instance : Inhabited Entry := ⟨⟨0, Level.Error, "", ""⟩⟩

/-- Sort key of the derived `Ord for Entry`: lexicographic over the fields in
declaration order (timestamp, then level, then target, then message). -/
def Entry.key (e : Entry) : Lex (Nat × Lex (Nat × Lex (String × String))) :=
  toLex (e.thenTime, toLex (e.level.rank, toLex (e.target, e.msg)))

/-- Boolean `≤` of the derived `Ord for Entry`. -/
def entryLe (a b : Entry) : Bool := decide (a.key ≤ b.key)

/-- Fixed-capacity circular buffer for one severity level:
`struct LevelRing { entries: Vec<Entry>, first: usize, last: usize }`. -/
structure LevelRing where
  entries : List Entry
  first : Nat
  last : Nat
deriving DecidableEq

/-- `LevelRing::new(level)`: sixteen placeholder slots (timestamped with the
construction-time clock reading), `first = last = 0`. -/
def LevelRing.new (now : Nat) (level : Level) : LevelRing :=
  { entries := List.replicate 16 { thenTime := now, level := level, target := "", msg := "" },
    first := 0,
    last := 0 }

/-- `LevelRing::len`: number of entries in the ring. -/
def LevelRing.len (r : LevelRing) : Nat :=
  if r.last ≥ r.first then
    r.last - r.first
  else
    -- Wrapped around.
    (r.entries.length - r.first) + r.last

/-- `LevelRing::rolling_inc`: increment an index, wrapping to 0 at capacity. -/
def LevelRing.rolling_inc (r : LevelRing) (value : Nat) : Nat :=
  let incremented := value + 1
  if incremented ≥ r.entries.length then 0 else incremented

/-- `LevelRing::push`. In the source the full branch writes at `first` and
advances `first`, then both branches advance `last`; `rolling_inc` depends
only on `entries.len()`, which the slot writes preserve, so the two
`rolling_inc` calls read the same capacity as in the sequential original. -/
def LevelRing.push (r : LevelRing) (entry : Entry) : LevelRing :=
  if r.len = r.entries.length then
    -- We are full; effectively pop the first entry to make room.
    { entries := r.entries.set r.first entry,
      first := r.rolling_inc r.first,
      last := r.rolling_inc r.last }
  else
    { entries := r.entries.set r.last entry,
      first := r.first,
      last := r.rolling_inc r.last }

/-- `LevelRing::append_to_vec(&self, target)`: extend `target` with
`entries[first..last]`, or with `entries[first..] ++ entries[..last]` when
wrapped. -/
def LevelRing.append_to_vec (r : LevelRing) (target : List Entry) : List Entry :=
  if r.last ≥ r.first then
    target ++ (r.entries.take r.last).drop r.first
  else
    (target ++ r.entries.drop r.first) ++ r.entries.take r.last

/-- A log record as seen by the sink: level, target, rendered message. -/
structure Record where
  level : Level
  target : String
  msg : String
deriving DecidableEq

/-- The `Entry` built by `Rings::log` from a record and the clock reading. -/
def mkEntry (now : Nat) (record : Record) : Entry :=
  { thenTime := now, level := record.level, target := record.target, msg := record.msg }

/-- `struct Rings { rings: HashMap<Level, LevelRing> }`. -/
structure Rings where
  rings : Level → Option LevelRing

/-- Insertion order of `Rings::new`, also used as the model's iteration
order for `rings.values()`. -/
def levelList : List Level := [.Error, .Warn, .Info, .Debug, .Trace]

/-- `Rings::new`: one ring per recognized level. -/
def Rings.new (now : Nat) : Rings :=
  { rings := fun level => some (LevelRing.new now level) }

/-- `Rings::get_entries(&self)`: fold `append_to_vec` over all rings. -/
def Rings.get_entries (s : Rings) : List Entry :=
  levelList.foldl
    (fun results level =>
      match s.rings level with
      | some ring => ring.append_to_vec results
      | none => results)
    []

/-- `Rings::log(&mut self, record)`: push into the ring of the record's
level when present; silently do nothing otherwise. -/
def Rings.log (s : Rings) (now : Nat) (record : Record) : Rings :=
  match s.rings record.level with
  | some ring =>
      { rings := fun l =>
          if l = record.level then some (ring.push (mkEntry now record)) else s.rings l }
  | none => s

/-- The optional secondary sink (`Box<dyn log::Log>`), abstracted by its
enablement decision over a record's metadata (level and target). -/
structure PrettySink where
  enabled : Level → String → Bool

/-- `struct Logger { pretty: Option<Box<dyn log::Log>> }`. -/
structure Logger where
  pretty : Option PrettySink

/-- `Logger::enabled`: delegate to the secondary sink when configured, else
enable `Error | Warn | Info` and nothing more verbose. -/
def Logger.enabled (logger : Logger) (level : Level) (target : String) : Bool :=
  match logger.pretty with
  | some pretty => pretty.enabled level target
  | none =>
    match level with
    | .Error | .Warn | .Info => true
    | _ => false

/-- `Logger::log`: record into the ring set unconditionally, then forward to
the secondary sink exactly when one is configured. The forwarded record (if
any) is returned alongside the updated ring state. -/
def Logger.log (logger : Logger) (s : Rings) (now : Nat) (record : Record) :
    Rings × Option Record :=
  (s.log now record, logger.pretty.map (fun _ => record))

/-- Public `get_entries()`: snapshot the ring set and sort by the derived
`Ord for Entry` (`entries.sort()`). -/
def get_entries (s : Rings) : List Entry :=
  List.mergeSort (s.get_entries) entryLe

/-- Test harness: an entry whose timestamp numbers its position in a push
sequence. -/
def numberedEntry (level : Level) (i : Nat) : Entry :=
  { thenTime := i, level := level, target := "", msg := "" }

/-- Test harness: push a list of entries in order. -/
def pushAll (r : LevelRing) (es : List Entry) : LevelRing :=
  es.foldl LevelRing.push r

/-- Test harness: push the entries numbered `0, …, k-1` in order. -/
def pushRange (r : LevelRing) (level : Level) (k : Nat) : LevelRing :=
  pushAll r ((List.range k).map (numberedEntry level))

example : (pushRange (LevelRing.new 0 .Info) .Info 3).len = 3 := by decide
example : (pushRange (LevelRing.new 0 .Info) .Info 3).append_to_vec [] =
    [numberedEntry .Info 0, numberedEntry .Info 1, numberedEntry .Info 2] := by decide
example : (pushRange (LevelRing.new 0 .Info) .Info 16).append_to_vec [] = [] := by decide

/-- Structural well-formedness maintained by the ring: capacity-16 backing
array and both indices in bounds. -/
def LevelRing.wf (r : LevelRing) : Prop :=
  r.entries.length = 16 ∧ r.first < 16 ∧ r.last < 16

instance (r : LevelRing) : Decidable r.wf := by
  unfold LevelRing.wf; infer_instance

/-- Ring states reachable from `LevelRing::new` by pushes. -/
inductive Reachable : LevelRing → Prop
  | base (now : Nat) (level : Level) : Reachable (LevelRing.new now level)
  | step (r : LevelRing) (e : Entry) : Reachable r → Reachable (r.push e)

theorem wf_new (now : Nat) (level : Level) : (LevelRing.new now level).wf := by
  refine ⟨?_, ?_, ?_⟩ <;> simp [LevelRing.new]

/-- With both indices strictly below the capacity, the two-index length
formula can never report a full ring. -/
theorem len_lt_of_wf {r : LevelRing} (h : r.wf) : r.len < r.entries.length := by
  obtain ⟨hlen, hf, hl⟩ := h
  unfold LevelRing.len
  split <;> omega

theorem rolling_inc_lt {r : LevelRing} (h : r.entries.length = 16) (v : Nat) :
    r.rolling_inc v < 16 := by
  unfold LevelRing.rolling_inc
  simp only [h]
  split <;> omega

/-- On any well-formed ring, `push` takes the not-full branch. -/
theorem push_eq_of_wf {r : LevelRing} (h : r.wf) (e : Entry) :
    r.push e =
      { entries := r.entries.set r.last e, first := r.first, last := r.rolling_inc r.last } := by
  unfold LevelRing.push
  rw [if_neg (Nat.ne_of_lt (len_lt_of_wf h))]

theorem wf_push {r : LevelRing} (h : r.wf) (e : Entry) : (r.push e).wf := by
  obtain ⟨hlen, hf, hl⟩ := h
  rw [push_eq_of_wf ⟨hlen, hf, hl⟩]
  exact ⟨by simpa using hlen, hf, rolling_inc_lt hlen r.last⟩

theorem wf_of_reachable {r : LevelRing} (h : Reachable r) : r.wf := by
  induction h with
  | base now level => exact wf_new now level
  | step r e _ ih => exact wf_push ih e

/-- C1: the claim fails on the code at the failing input k = C = 16. Pushing
sixteen entries into a fresh ring leaves `first == last`, so `len()` reports
0 and draining yields the empty sequence instead of the sixteen pushed
entries in insertion order (with k ≤ C the claim requires all k back). -/
theorem c1_sixteen_pushes_drain_empty :
    (pushRange (LevelRing.new 0 .Info) .Info 16).append_to_vec [] = [] ∧
    (pushRange (LevelRing.new 0 .Info) .Info 16).append_to_vec [] ≠
      (List.range 16).map (numberedEntry .Info) := by
  decide

/-- Writing slot `m` and then taking `m + 1` elements appends the written
element to the first `m`. -/
theorem take_set_concat : ∀ (l : List Entry) (m : Nat) (e : Entry), m < l.length →
    (l.set m e).take (m + 1) = l.take m ++ [e]
  | [], _, _, h => by simp at h
  | _ :: _, 0, _, _ => by simp
  | a :: l, m + 1, e, h => by
    have ih := take_set_concat l m e (by simpa using h)
    show a :: ((l.set m e).take (m + 1)) = a :: (l.take m ++ [e])
    rw [ih]

/-- State of a fresh ring after `k` numbered pushes: `first` stays 0, `last`
cycles modulo 16, and the slots below `last` hold the `k mod 16` most recent
pushes. -/
theorem pushRange_state (now : Nat) (level : Level) :
    ∀ k : Nat,
      (pushRange (LevelRing.new now level) level k).first = 0 ∧
      (pushRange (LevelRing.new now level) level k).last = k % 16 ∧
      (pushRange (LevelRing.new now level) level k).entries.length = 16 ∧
      (pushRange (LevelRing.new now level) level k).entries.take (k % 16) =
        (List.range' (k - k % 16) (k % 16)).map (numberedEntry level)
  | 0 => ⟨rfl, rfl, by simp [pushRange, pushAll, LevelRing.new], by simp⟩
  | k + 1 => by
    obtain ⟨hf, hl, hlen, htake⟩ := pushRange_state now level k
    have hstep : pushRange (LevelRing.new now level) level (k + 1) =
        (pushRange (LevelRing.new now level) level k).push (numberedEntry level k) := by
      unfold pushRange pushAll
      rw [List.range_succ, List.map_append, List.foldl_append]
      rfl
    have hwf : (pushRange (LevelRing.new now level) level k).wf :=
      ⟨hlen, by omega, by omega⟩
    rw [hstep, push_eq_of_wf hwf]
    refine ⟨hf, ?_, by simpa using hlen, ?_⟩
    · show (pushRange (LevelRing.new now level) level k).rolling_inc
        (pushRange (LevelRing.new now level) level k).last = (k + 1) % 16
      unfold LevelRing.rolling_inc
      simp only [hlen, hl]
      split <;> omega
    · show ((pushRange (LevelRing.new now level) level k).entries.set
        (pushRange (LevelRing.new now level) level k).last
          (numberedEntry level k)).take ((k + 1) % 16) =
        (List.range' ((k + 1) - (k + 1) % 16) ((k + 1) % 16)).map (numberedEntry level)
      rcases Nat.lt_or_ge (k % 16) 15 with hcase | hcase
      · have h1 : (k + 1) % 16 = k % 16 + 1 := by omega
        have h2 : k + 1 - (k % 16 + 1) = k - k % 16 := by omega
        rw [h1, h2, hl, take_set_concat _ _ _ (by omega), htake,
          List.range'_concat, List.map_append]
        have h3 : k - k % 16 + 1 * (k % 16) = k := by omega
        rw [h3]
        rfl
      · have h1 : k % 16 = 15 := by omega
        have h2 : (k + 1) % 16 = 0 := by omega
        simp [h2]

/-- C2: the capacity half of the claim holds, but the property-test half
fails on the code: after 1000 pushes into a fresh capacity-16 ring the
drain holds 8 entries (1000 mod 16), the last 8 pushed — not 16. -/
theorem c2_thousand_pushes_retain_eight :
    (pushRange (LevelRing.new 0 .Info) .Info 1000).len = 8 ∧
    (pushRange (LevelRing.new 0 .Info) .Info 1000).append_to_vec [] =
      (List.range' 992 8).map (numberedEntry .Info) := by
  obtain ⟨hf, hl, hlen, htake⟩ := pushRange_state 0 .Info 1000
  have h8 : (1000 : Nat) % 16 = 8 := by norm_num
  rw [h8] at hl
  rw [h8] at htake
  norm_num at htake
  constructor
  · unfold LevelRing.len
    rw [hf, hl, if_pos (by omega : (8 : Nat) ≥ 0)]
  · unfold LevelRing.append_to_vec
    rw [hf, hl, if_pos (by omega : (8 : Nat) ≥ 0), List.drop_zero, List.nil_append]
    exact htake

/-- C3: on every ring state reachable from `LevelRing::new` by pushes,
`len()` stays strictly below the capacity 16, so `push` always takes its
not-full branch (the full-overwrite branch is dead); concretely, after
exactly 16 pushes `first == last` again, `len()` is 0 and draining yields
the empty sequence. -/
theorem c3_full_branch_never_taken :
    (∀ r : LevelRing, Reachable r →
      r.len < 16 ∧
      ∀ e : Entry, r.push e =
        { entries := r.entries.set r.last e, first := r.first,
          last := r.rolling_inc r.last }) ∧
    ((pushRange (LevelRing.new 0 .Info) .Info 16).first =
        (pushRange (LevelRing.new 0 .Info) .Info 16).last ∧
      (pushRange (LevelRing.new 0 .Info) .Info 16).len = 0 ∧
      (pushRange (LevelRing.new 0 .Info) .Info 16).append_to_vec [] = []) := by
  constructor
  · intro r hr
    have hwf := wf_of_reachable hr
    have h1 := len_lt_of_wf hwf
    have h2 := hwf.1
    exact ⟨by omega, fun e => push_eq_of_wf hwf e⟩
  · exact ⟨by decide, by decide, by decide⟩

/-- C3 witness: the reachability hypothesis discharged at the freshly
constructed ring. -/
theorem c3_witness :
    (LevelRing.new 0 Level.Info).len < 16 ∧
    (LevelRing.new 0 Level.Info).push (numberedEntry Level.Info 0) =
      { entries := (LevelRing.new 0 Level.Info).entries.set
          (LevelRing.new 0 Level.Info).last (numberedEntry Level.Info 0),
        first := (LevelRing.new 0 Level.Info).first,
        last := (LevelRing.new 0 Level.Info).rolling_inc
          (LevelRing.new 0 Level.Info).last } :=
  ⟨(c3_full_branch_never_taken.1 (LevelRing.new 0 Level.Info)
      (Reachable.base 0 Level.Info)).1,
   (c3_full_branch_never_taken.1 (LevelRing.new 0 Level.Info)
      (Reachable.base 0 Level.Info)).2 (numberedEntry Level.Info 0)⟩

/-- Region of slots `[a, b)` of a ring, read slot by slot — the vocabulary in
which the spec describes the valid regions of `append_to_vec`. -/
def ringSlots (r : LevelRing) (a b : Nat) : List Entry :=
  (List.range (b - a)).map (fun i => r.entries.getD (a + i) default)

/-- Model of calling the `&self` method `append_to_vec`: the receiver comes
back unchanged alongside the extended output vector. -/
def LevelRing.append_to_vec_call (r : LevelRing) (target : List Entry) :
    LevelRing × List Entry :=
  (r, r.append_to_vec target)

/-- Dropping `a` from the first `b` elements reads exactly slots `[a, b)`. -/
theorem drop_take_eq_slots (l : List Entry) (a b : Nat) (hb : b ≤ l.length) :
    (l.take b).drop a = (List.range (b - a)).map (fun i => l.getD (a + i) default) := by
  apply List.ext_getElem
  · simp
    omega
  · intro i h1 h2
    have hi : i < b - a := by
      simpa using h2
    have hlt : i + a < l.length := by omega
    have hsome : l[i + a]? = some l[i + a] := List.getElem?_eq_getElem hlt
    simp [Nat.add_comm a i, hsome]

/-- C4: on every in-bounds ring state, draining appends exactly the
contiguous region `[first, last)` when `last ≥ first`, and otherwise the
wraparound concatenation `[first, 16) ++ [0, last)`; the `&self` call leaves
the ring unchanged. -/
theorem c4_drain_regions (r : LevelRing) (target : List Entry) (h : r.wf) :
    (r.append_to_vec target =
      if r.last ≥ r.first then target ++ ringSlots r r.first r.last
      else target ++ (ringSlots r r.first 16 ++ ringSlots r 0 r.last)) ∧
    (r.append_to_vec_call target).1 = r := by
  obtain ⟨hlen, hfirst, hlast⟩ := h
  refine ⟨?_, rfl⟩
  unfold LevelRing.append_to_vec ringSlots
  by_cases hc : r.last ≥ r.first
  · simp only [if_pos hc]
    rw [drop_take_eq_slots r.entries r.first r.last (by omega)]
  · simp only [if_neg hc]
    rw [List.append_assoc]
    congr 1
    congr 1
    · have hdrop : r.entries.drop r.first =
          (r.entries.take r.entries.length).drop r.first := by
        rw [List.take_length]
      rw [hdrop, drop_take_eq_slots r.entries r.first r.entries.length (Nat.le_refl _),
        hlen]
    · have htake : r.entries.take r.last = (r.entries.take r.last).drop 0 := rfl
      rw [htake, drop_take_eq_slots r.entries 0 r.last (by omega)]

/-- Test harness: a wrapped-around ring state (`last < first`), exercising
the two-part region of `append_to_vec`. -/
def wrappedRing : LevelRing :=
  { entries := (List.range 16).map (numberedEntry .Warn), first := 14, last := 3 }

/-- Test harness: a small contiguous ring state. -/
def smallRing : LevelRing := pushRange (LevelRing.new 0 .Info) .Info 3

/-- C4 witness: the well-formedness hypothesis discharged on a contiguous
state and on a wrapped state. -/
theorem c4_witness :
    (smallRing.append_to_vec [] =
      if smallRing.last ≥ smallRing.first then [] ++ ringSlots smallRing smallRing.first smallRing.last
      else [] ++ (ringSlots smallRing smallRing.first 16 ++ ringSlots smallRing 0 smallRing.last)) ∧
    (wrappedRing.append_to_vec [] =
      if wrappedRing.last ≥ wrappedRing.first then [] ++ ringSlots wrappedRing wrappedRing.first wrappedRing.last
      else [] ++ (ringSlots wrappedRing wrappedRing.first 16 ++ ringSlots wrappedRing 0 wrappedRing.last)) :=
  ⟨(c4_drain_regions smallRing [] (by decide)).1,
   (c4_drain_regions wrappedRing [] (by decide)).1⟩

/-- Model of calling `Rings::get_entries(&self)`: the receiver comes back
unchanged alongside the returned sequence. -/
def Rings.get_entries_call (s : Rings) : List Entry × Rings :=
  (s.get_entries, s)

/-- C5: reads are idempotent — in any ring-set state, a second snapshot with
no intervening push returns the same sequence (for both the raw collection
and the sorted public query), and the first call leaves the state it hands
to the second call unchanged. -/
theorem c5_read_idempotent (s : Rings) :
    (s.get_entries_call).2 = s ∧
    ((s.get_entries_call).2.get_entries_call).1 = (s.get_entries_call).1 ∧
    get_entries (s.get_entries_call).2 = get_entries s :=
  ⟨rfl, rfl, rfl⟩

theorem entryLe_trans (a b c : Entry) : entryLe a b → entryLe b c → entryLe a c := by
  unfold entryLe
  intro hab hbc
  exact decide_eq_true (le_trans (of_decide_eq_true hab) (of_decide_eq_true hbc))

theorem entryLe_total (a b : Entry) : entryLe a b || entryLe b a := by
  unfold entryLe
  rcases le_total a.key b.key with h | h
  · simp [h]
  · simp [h]

/-- The derived lexicographic order on entries compares timestamps first. -/
theorem entryLe_thenTime {a b : Entry} (h : entryLe a b = true) :
    a.thenTime ≤ b.thenTime := by
  have hk : a.key ≤ b.key := of_decide_eq_true h
  unfold Entry.key at hk
  rcases (Prod.Lex.le_iff _ _).mp hk with h1 | ⟨h1, _⟩
  · exact Nat.le_of_lt h1
  · exact Nat.le_of_eq h1

/-- C6: the public query returns a sequence sorted by the structural entry
ordering, hence non-decreasing in timestamp. -/
theorem c6_get_entries_sorted (s : Rings) :
    (get_entries s).Pairwise (fun a b => entryLe a b = true) ∧
    (get_entries s).Pairwise (fun a b => a.thenTime ≤ b.thenTime) := by
  have hs := List.sorted_mergeSort entryLe_trans entryLe_total (s.get_entries)
  exact ⟨hs, hs.imp entryLe_thenTime⟩

/-- C7: routing a record touches only the ring of the record's level, and a
record whose level has no ring leaves the ring set entirely unchanged. -/
theorem c7_routing_frame (s : Rings) (now : Nat) (record : Record) :
    (∀ ring, s.rings record.level = some ring →
      (s.log now record).rings record.level = some (ring.push (mkEntry now record)) ∧
      ∀ l, l ≠ record.level → (s.log now record).rings l = s.rings l) ∧
    (s.rings record.level = none → s.log now record = s) := by
  constructor
  · intro ring hring
    constructor
    · simp [Rings.log, hring]
    · intro l hl
      simp [Rings.log, hring, hl]
  · intro hnone
    simp [Rings.log, hnone]

/-- Test harness: a ring set holding only an Error ring, so that routing a
Trace record finds no ring. -/
def sparseRings : Rings :=
  { rings := fun l => if l = Level.Error then some (LevelRing.new 0 .Error) else none }

/-- C7 witness: the present-ring hypothesis discharged on a full ring set
and the absent-ring hypothesis discharged on the sparse set. -/
theorem c7_witness :
    ((Rings.new 0).log 5 ⟨.Warn, "t", "m"⟩).rings Level.Error =
      (Rings.new 0).rings Level.Error ∧
    (sparseRings.log 5 ⟨.Trace, "t", "m"⟩) = sparseRings :=
  ⟨((c7_routing_frame (Rings.new 0) 5 ⟨.Warn, "t", "m"⟩).1 (LevelRing.new 0 .Warn)
      rfl).2 Level.Error (by decide),
   (c7_routing_frame sparseRings 5 ⟨.Trace, "t", "m"⟩).2 (by decide)⟩

/-- Test harness for the C8 scenario: no secondary sink, one Error and one
Trace record logged. -/
def noSinkLogger : Logger := ⟨none⟩

def errRecord : Record := ⟨.Error, "t", "boom"⟩

def traceRecord : Record := ⟨.Trace, "t", "quiet"⟩

def scenarioRings : Rings :=
  (noSinkLogger.log ((noSinkLogger.log (Rings.new 0) 1 errRecord).1) 2 traceRecord).1

/-- C8: `Logger::log` records into the ring set unconditionally and forwards
to the secondary sink exactly when one is configured; with no sink, after an
Error and a Trace record, `enabled` is false for Trace and true for Error
yet both records are retrievable from `get_entries()`. -/
theorem c8_log_always_records (logger : Logger) (s : Rings) (now : Nat) (record : Record) :
    ((logger.log s now record).1 = s.log now record ∧
      (logger.log s now record).2 =
        (if logger.pretty.isSome then some record else none)) ∧
    (noSinkLogger.enabled .Trace "t" = false ∧
      noSinkLogger.enabled .Error "t" = true ∧
      mkEntry 1 errRecord ∈ get_entries scenarioRings ∧
      mkEntry 2 traceRecord ∈ get_entries scenarioRings) := by
  refine ⟨⟨rfl, ?_⟩, rfl, rfl, ?_, ?_⟩
  · cases h : logger.pretty <;> simp [Logger.log, h]
  · rw [get_entries, List.mem_mergeSort]
    decide
  · rw [get_entries, List.mem_mergeSort]
    decide

/-- C9: `Logger::enabled` is exactly the secondary sink's decision when one
is configured, and otherwise enables precisely Error, Warn and Info. -/
theorem c9_enabled_policy (level : Level) (target : String) :
    (∀ ps : PrettySink,
      (Logger.mk (some ps)).enabled level target = ps.enabled level target) ∧
    ((Logger.mk none).enabled level target = decide (level.rank ≤ Level.Info.rank)) := by
  constructor
  · intro ps
    rfl
  · cases level <;> rfl

/-- C10: every reachable ring state has a backing array of length exactly
16 with both indices in bounds, `rolling_inc` maps `[0, 16)` into `[0, 16)`,
and `push` is total: from any reachable state it reaches a state again in
bounds (so every slot write of `push` and every slice of `append_to_vec` is
within the array). -/
theorem c10_index_safety (r : LevelRing) (h : Reachable r) :
    r.entries.length = 16 ∧
    r.first < r.entries.length ∧
    r.last < r.entries.length ∧
    (∀ v, v < 16 → r.rolling_inc v < 16) ∧
    (∀ e : Entry, Reachable (r.push e) ∧ (r.push e).entries.length = 16 ∧
      (r.push e).first < 16 ∧ (r.push e).last < 16) := by
  obtain ⟨hlen, hf, hl⟩ := wf_of_reachable h
  refine ⟨hlen, by omega, by omega, fun v _ => rolling_inc_lt hlen v, fun e => ?_⟩
  have hwp := wf_push ⟨hlen, hf, hl⟩ e
  exact ⟨Reachable.step r e h, hwp.1, hwp.2.1, hwp.2.2⟩

/-- C10 witness: the reachability hypothesis discharged at a freshly
constructed ring. -/
theorem c10_witness :
    (LevelRing.new 0 Level.Error).entries.length = 16 ∧
    (LevelRing.new 0 Level.Error).first < (LevelRing.new 0 Level.Error).entries.length :=
  ⟨(c10_index_safety (LevelRing.new 0 Level.Error) (Reachable.base 0 Level.Error)).1,
   (c10_index_safety (LevelRing.new 0 Level.Error) (Reachable.base 0 Level.Error)).2.1⟩
